import Mathlib

/-!
Verification of the xray_generator merge/consolidation/checkpoint engine.

This file is a shallow embedding of `xray_generator.py`: Python strings are
Lean `String`s (with helpers working on `List Char`), Python dicts keyed by
strings are association lists that preserve insertion order (as CPython dicts
do), Python sets of strings are duplicate-free lists built by
insert-if-absent, and the external AI service is an oracle: a list of
responses consumed one per attempt.  The external `opencc` t2s converter is
modelled as a character-wise map (`t2sChar`) over a table of genuine
Traditional→Simplified pairs, identity elsewhere; the Python source only
feeds it opaque user text, so the claims below never depend on the table
beyond concrete evaluation points.
-/

/-- Whitespace as recognised by Python's `str.strip()` (the subset relevant
to the character sets appearing in this program). -/
def isPyWhite (c : Char) : Bool :=
  c = ' ' || c = '\t' || c = '\n' || c = '\r' || c = '\x0b' || c = '\x0c' ||
  c = ' ' || c = '　'

/-- Python `str.strip()` on a character list. -/
def pyStrip (l : List Char) : List Char :=
  ((l.dropWhile isPyWhite).reverse.dropWhile isPyWhite).reverse

/-- Python `str.strip()` on a `String`. -/
def pyStripS (s : String) : String :=
  String.mk (pyStrip s.data)

/-- `l` starts with `p` (Python `str.startswith`). -/
def strStarts : List Char → List Char → Bool
  | _, [] => true
  | [], _ :: _ => false
  | c :: cs, p :: ps => c = p && strStarts cs ps

/-- `l` ends with `p` (Python `str.endswith`). -/
def strEnds (l p : List Char) : Bool :=
  strStarts l.reverse p.reverse

/-- `p` occurs as a contiguous substring of `l` (Python `in` on strings). -/
def containsSub : List Char → List Char → Bool
  | l, p =>
    if strStarts l p then true
    else
      match l with
      | [] => false
      | _ :: rest => containsSub rest p

/-- First-match lookup in an insertion-ordered dict (Python `d[k]` /
`k in d`). -/
def dictGet {α : Type} (k : String) : List (String × α) → Option α
  | [] => none
  | (k', v) :: rest => if k' = k then some v else dictGet k rest

/-- Python `d[k] = v`: replace the value at the first occurrence of `k`,
or append a fresh binding at the end (CPython dicts keep insertion order). -/
def dictSet {α : Type} (k : String) (v : α) : List (String × α) → List (String × α)
  | [] => [(k, v)]
  | (k', v') :: rest => if k' = k then (k, v) :: rest else (k', v') :: dictSet k v rest

/-- Model of the external `opencc` t2s converter, character-wise: a table of
actual Traditional→Simplified pairs, identity on every other character. -/
def t2sChar (c : Char) : Char :=
  if c = '媽' then '妈'
  else if c = '後' then '后'
  else if c = '蘇' then '苏'
  else if c = '爺' then '爷'
  else if c = '師' then '师'
  else if c = '醫' then '医'
  else if c = '車' then '车'
  else if c = '東' then '东'
  else if c = '馬' then '马'
  else if c = '龍' then '龙'
  else c

/-- `_T2S_CONVERTER.convert` on a string. -/
def t2sStr (s : String) : String :=
  String.mk (s.data.map t2sChar)

/-- Opening parenthesis accepted by the regex `[（(]`. -/
def isOpenParen (c : Char) : Bool :=
  c = '(' || c = '（'

/-- Closing parenthesis accepted by the regex `[）)]`. -/
def isCloseParen (c : Char) : Bool :=
  c = ')' || c = '）'

/-- State machine for `re.sub(r"[（(][^）)]*[）)]", "", name)`: each match runs
from an opening parenthesis to the first closing parenthesis after it, so an
opener with a closer somewhere ahead switches into skipping mode until that
first closer; an opener with no closer ahead can never be part of a match and
is kept verbatim. -/
def removeParensGo : Bool → List Char → List Char
  | _, [] => []
  | false, c :: cs =>
    if isOpenParen c then
      if cs.any isCloseParen then removeParensGo true cs
      else c :: removeParensGo false cs
    else c :: removeParensGo false cs
  | true, c :: cs =>
    if isCloseParen c then removeParensGo false cs
    else removeParensGo true cs

/-- `re.sub(r"[（(][^）)]*[）)]", "", name)`: remove parenthetical content. -/
def removeParens (l : List Char) : List Char :=
  removeParensGo false l

/-- `NAME_PREFIXES` from the source. -/
def NAME_PREFIXES : List String :=
  ["后妈", "继母", "生母", "亲妈", "外婆", "奶奶", "爷爷", "外公", "老", "小", "大"]

/-- `NAME_SUFFIXES` from the source. -/
def NAME_SUFFIXES : List String :=
  ["先生", "太太", "小姐", "女士", "夫人", "阁下", "律师", "医生", "教授", "老师",
   "博士", "神父", "牧师", "爸爸", "妈妈", "父亲", "母亲", "舅舅", "姨父", "姨妈",
   "叔叔", "阿姨", "姑姑", "姑父", "伯父", "伯母", "哥哥", "弟弟", "姐姐", "妹妹",
   "表哥", "表弟", "表姐", "表妹", "堂哥", "堂弟", "堂姐", "堂妹"]

/-- The prefix-stripping loop of `normalize_character_name`: the first listed
honorific that is a proper prefix and leaves a non-empty stripped remainder
is removed (then the loop breaks); otherwise the name is kept. -/
def stripPrefixLoop : List String → List Char → List Char
  | [], name => name
  | p :: ps, name =>
    if strStarts name p.data && decide (p.data.length < name.length) then
      if pyStrip (name.drop p.data.length) ≠ [] then pyStrip (name.drop p.data.length)
      else stripPrefixLoop ps name
    else stripPrefixLoop ps name

/-- The suffix-stripping loop of `normalize_character_name`: the first listed
suffix that is a proper suffix and whose removal leaves a non-empty stripped
remainder not ending in 的 is removed (then the loop breaks). -/
def stripSuffixLoop : List String → List Char → List Char
  | [], name => name
  | p :: ps, name =>
    if strEnds name p.data && decide (p.data.length < name.length) then
      if pyStrip (name.take (name.length - p.data.length)) ≠ [] &&
          !strEnds (pyStrip (name.take (name.length - p.data.length))) ['的'] then
        pyStrip (name.take (name.length - p.data.length))
      else stripSuffixLoop ps name
    else stripSuffixLoop ps name

/-- `normalize_character_name`: strip parenthetical content, then at most one
honorific prefix and one suffix; fall back to the original name when the
result would be empty. -/
def normalize_character_name (s : String) : String :=
  if s = "" then s
  else
    let original := s.data
    let name := pyStrip (removeParens original)
    let p1 := stripPrefixLoop NAME_PREFIXES name
    let p2 := stripSuffixLoop NAME_SUFFIXES p1
    String.mk (if p2 ≠ [] then p2 else original)

/-- `normalize_for_dedup`: Traditional→Simplified conversion plus strip. -/
def normalize_for_dedup (s : String) : String :=
  if s = "" then s else pyStripS (t2sStr s)

/-- Hyphen variants folded by `normalize_location_name`. -/
def hyphenFold (c : Char) : Char :=
  if c = '－' || c = '—' || c = '–' then '-' else c

/-- `normalize_location_name`: hyphen folding plus T2S conversion and strip. -/
def normalize_location_name (s : String) : String :=
  if s = "" then s else pyStripS (t2sStr (String.mk (s.data.map hyphenFold)))

/-- The full character dedup key as computed inside `_merge_characters`:
the raw mention name is stripped, normalized, then T2S-converted. -/
def charDedupKey (raw : String) : String :=
  normalize_for_dedup (normalize_character_name (pyStripS raw))

/-- The full location dedup key as computed inside `_merge_locations`. -/
def locDedupKey (raw : String) : String :=
  normalize_location_name (pyStripS raw)

example : normalize_character_name "老老王" = "老王" := by decide
example : normalize_character_name "老王" = "王" := by decide
example : charDedupKey "老王" = "王" := by decide
example : normalize_character_name "(x)" = "(x)" := by decide
example : normalize_character_name "王妈妈" = "王" := by decide

/-! ## Master State -/

/-- A character entry of `MasterData.characters` (the per-key dict value). -/
structure CharEntry where
  display_name : String
  descriptions : List String
  events : List (String × Int)
  consolidated : Option String
deriving DecidableEq, Repr

/-- A location entry of `MasterData.locations`. -/
structure LocEntry where
  display_name : String
  descriptions : List String
  consolidated : Option String
deriving DecidableEq, Repr

/-- The `MasterData` aggregate.  Dicts are insertion-ordered association
lists; the theme set is a duplicate-free list built by insert-if-absent. -/
structure MasterData where
  book_title : String
  author : String
  author_bio : String
  characters : List (String × CharEntry)
  locations : List (String × LocEntry)
  themes : List String
  events : List String
  summary_parts : List String
deriving DecidableEq, Repr

/-- `MasterData.__init__`. -/
def initMaster (book_title author author_bio : String) : MasterData :=
  ⟨book_title, author, author_bio, [], [], [], [], []⟩

/-- A raw character event inside an incoming chunk result; `absolute_percent`
is `none` when the key is missing from the event dict (the percent value is
only copied, never computed, along the merge path, so its numeric type is
immaterial and modelled as `Int`). -/
structure RawEvent where
  event : String
  absolute_percent : Option Int
deriving DecidableEq, Repr

/-- A raw character mention inside an incoming chunk result (missing dict
keys are modelled by the empty string / empty list defaults `dict.get`
produces). -/
structure RawChar where
  name : String
  description : String
  events : List RawEvent
deriving DecidableEq, Repr

/-- A raw location mention inside an incoming chunk result. -/
structure RawLoc where
  name : String
  description : String
deriving DecidableEq, Repr

/-- An incoming per-chunk analysis result (`chunk_data`); empty strings model
missing/falsy metadata fields. -/
structure ChunkData where
  characters : List RawChar
  locations : List RawLoc
  themes : List String
  events : List String
  summary : String
  book_title : String
  author : String
  author_bio : String
deriving DecidableEq, Repr

/-- `META_THEMES` from the source. -/
def META_THEMES : List String :=
  ["文本过渡", "多重视角", "叙事结构", "文本结构", "视角转换", "章节划分",
   "结构特征", "叙事视角", "文本特点", "行文风格", "写作手法", "叙述方式"]

/-- Digit test for the trailing-percent regex (`\d`, ASCII digits). -/
def isAsciiDigit (c : Char) : Bool :=
  '0' ≤ c && c ≤ '9'

/-- Helper for `stripTrailingPct`: after the reversed digits (and optional
fraction) have been consumed, expect the opening parenthesis and then any
amount of whitespace (`\s*`), returning the reversed remainder to keep. -/
def stripPctOpen (r : List Char) : Option (List Char) :=
  match r with
  | c :: rest => if isOpenParen c then some (rest.dropWhile isPyWhite) else none
  | [] => none

/-- `re.sub(r"\s*[(（]\d+(?:\.\d+)?%[)）]$", "", t)`: remove one trailing
percentage annotation such as `" (22%)"` or `"（4.5%）"`; the parse runs over
the reversed character list. -/
def stripTrailingPct (s : String) : String :=
  match s.data.reverse with
  | c :: '%' :: r2 =>
    if isCloseParen c then
      let d1 := r2.takeWhile isAsciiDigit
      let r3 := r2.dropWhile isAsciiDigit
      if d1 = [] then s
      else
        match r3 with
        | '.' :: r4 =>
          let d2 := r4.takeWhile isAsciiDigit
          let r5 := r4.dropWhile isAsciiDigit
          if d2 = [] then
            match stripPctOpen r3 with
            | some kept => String.mk kept.reverse
            | none => s
          else
            match stripPctOpen r5 with
            | some kept => String.mk kept.reverse
            | none =>
              match stripPctOpen r3 with
              | some kept => String.mk kept.reverse
              | none => s
        | _ =>
          match stripPctOpen r3 with
          | some kept => String.mk kept.reverse
          | none => s
    else s
  | _ => s

/-- One iteration of the character loop of `MasterData._merge_characters`. -/
def mergeCharStep (m : MasterData) (char : RawChar) : MasterData :=
  let raw_name := pyStripS char.name
  if raw_name = "" then m
  else
    let name := normalize_character_name raw_name
    if name = "" then m
    else
      let desc := pyStripS char.description
      let simplified_name := normalize_for_dedup name
      let entry0 : CharEntry :=
        match dictGet simplified_name m.characters with
        | some e => e
        | none => ⟨simplified_name, [], [], none⟩
      let entry1 : CharEntry :=
        match entry0.consolidated with
        | some c =>
          if c ≠ "" then
            { entry0 with descriptions := c :: entry0.descriptions, consolidated := none }
          else entry0
        | none => entry0
      let entry2 : CharEntry :=
        if desc ≠ "" then
          { entry1 with descriptions := entry1.descriptions ++ [t2sStr desc] }
        else entry1
      let newEvents : List (String × Int) :=
        char.events.filterMap fun ev =>
          match ev.absolute_percent with
          | some p =>
            if ev.event ≠ "" then some (stripTrailingPct (t2sStr ev.event), p) else none
          | none => none
      let entry3 : CharEntry := { entry2 with events := entry2.events ++ newEvents }
      { m with characters := dictSet simplified_name entry3 m.characters }

/-- `MasterData._merge_characters`. -/
def MasterData.merge_characters (m : MasterData) (chars : List RawChar) : MasterData :=
  chars.foldl mergeCharStep m

/-- One iteration of the location loop of `MasterData._merge_locations`. -/
def mergeLocStep (m : MasterData) (loc : RawLoc) : MasterData :=
  let name := pyStripS loc.name
  if name = "" then m
  else
    let desc := pyStripS loc.description
    let simplified_name := normalize_location_name name
    let entry0 : LocEntry :=
      match dictGet simplified_name m.locations with
      | some e => e
      | none => ⟨simplified_name, [], none⟩
    let entry1 : LocEntry :=
      match entry0.consolidated with
      | some c =>
        if c ≠ "" then
          { entry0 with descriptions := c :: entry0.descriptions, consolidated := none }
        else entry0
      | none => entry0
    let entry2 : LocEntry :=
      if desc ≠ "" then
        { entry1 with descriptions := entry1.descriptions ++ [t2sStr desc] }
      else entry1
    { m with locations := dictSet simplified_name entry2 m.locations }

/-- `MasterData._merge_locations`. -/
def MasterData.merge_locations (m : MasterData) (locs : List RawLoc) : MasterData :=
  locs.foldl mergeLocStep m

/-- `MasterData._merge_themes`: add each non-empty theme not on the
denylist to the theme set. -/
def MasterData.merge_themes (m : MasterData) (themes : List String) : MasterData :=
  themes.foldl
    (fun m t =>
      if t ≠ "" && !META_THEMES.contains t then
        if m.themes.contains t then m else { m with themes := m.themes ++ [t] }
      else m)
    m

/-- `MasterData._merge_events`: global event parsing is disabled. -/
def MasterData.merge_events (m : MasterData) (_ : List String) : MasterData :=
  m

/-- `MasterData._merge_summary`. -/
def MasterData.merge_summary (m : MasterData) (summary : String) : MasterData :=
  let s := pyStripS summary
  if s ≠ "" then { m with summary_parts := m.summary_parts ++ [s] } else m

/-- `MasterData._merge_metadata`: last write wins, but only for truthy
(non-empty) incoming values. -/
def MasterData.merge_metadata (m : MasterData) (cd : ChunkData) : MasterData :=
  let m1 := if cd.book_title ≠ "" then { m with book_title := cd.book_title } else m
  let m2 := if cd.author ≠ "" then { m1 with author := cd.author } else m1
  if cd.author_bio ≠ "" then { m2 with author_bio := cd.author_bio } else m2

/-- `MasterData.merge_chunk`. -/
def MasterData.merge_chunk (m : MasterData) (cd : ChunkData) : MasterData :=
  (((((m.merge_characters cd.characters).merge_locations cd.locations).merge_themes
    cd.themes).merge_events cd.events).merge_summary cd.summary).merge_metadata cd

/-- `MasterData.get_items_needing_consolidation`: an entity is selected iff
it has no consolidated description (`is None`) and more than one fragment. -/
def MasterData.get_items_needing_consolidation (m : MasterData) :
    List (String × String) × List (String × String) :=
  (m.characters.filterMap fun p =>
      if p.2.consolidated = none ∧ p.2.descriptions.length > 1 then
        some (p.1, String.intercalate " " p.2.descriptions)
      else none,
   m.locations.filterMap fun p =>
      if p.2.consolidated = none ∧ p.2.descriptions.length > 1 then
        some (p.1, String.intercalate " " p.2.descriptions)
      else none)

/-- `MasterData.apply_consolidation`: on success the fragment list is
replaced by the single consolidated description. -/
def MasterData.apply_consolidation (m : MasterData) (entity_type name consolidated_desc : String) :
    MasterData :=
  if entity_type = "character" then
    match dictGet name m.characters with
    | some e =>
      let e2 := { e with consolidated := some consolidated_desc, descriptions := ([] : List String) }
      { m with characters := dictSet name e2 m.characters }
    | none => m
  else
    match dictGet name m.locations with
    | some e =>
      let e2 := { e with consolidated := some consolidated_desc, descriptions := ([] : List String) }
      { m with locations := dictSet name e2 m.locations }
    | none => m

/-- The trigger formula exactly as the spec words it (refinement comparison
definition, not translated from the source):
`(fragment_count > 1 and combined_length > 300) or combined_length > 500`. -/
def specConsolidationTrigger (fragment_count combined_length : Nat) : Prop :=
  (fragment_count > 1 ∧ combined_length > 300) ∨ combined_length > 500

example : stripTrailingPct "到达 (22%)" = "到达" := by decide
example : stripTrailingPct "到达（4.5%）" = "到达" := by decide
example : stripTrailingPct "到达 (4.5.3%)" = "到达 (4.5.3%)" := by decide

/-! ## Chunker -/

/-- `MAX_CHUNK_SIZE` from the source. -/
def MAX_CHUNK_SIZE : Nat := 15000

/-- `MAX_RETRIES` from the source. -/
def MAX_RETRIES : Nat := 2

/-- A chunk as built by `build_chunks`: contributing chapter titles, text
payload, cumulative end-offset (`chars_processed`-based). -/
abbrev ChunkT : Type := List String × String × Nat

/-- The cumulative end-offset of a chunk. -/
def chunkOff (c : ChunkT) : Nat := c.2.2

/-- The text payload of a chunk. -/
def chunkPayload (c : ChunkT) : String := c.2.1

/-- The end-offsets of a chunk list, in order. -/
def offs (l : List ChunkT) : List Nat := l.map chunkOff

/-- Index of the last `'\n'` in a character list, if any. -/
def lastNL : List Char → Option Nat
  | [] => none
  | c :: cs =>
    match lastNL cs with
    | some i => some (i + 1)
    | none => if c = '\n' then some 0 else none

/-- Python `chapter_text.rfind("\n", lo, hi)`: the largest index in
`[lo, hi)` holding a newline, `none` when there is none. -/
def rfindNL (cs : List Char) (lo hi : Nat) : Option Nat :=
  (lastNL ((cs.drop lo).take (hi - lo))).map (lo + ·)

/-- The end position chosen for one segment of an oversized chapter:
`min(start + MAX_CHUNK_SIZE, len)`, pulled back to just after the last
newline in a 500-character lookback window when that newline lies strictly
beyond `start`. -/
def chooseEnd (ct : List Char) (start : Nat) : Nat :=
  if min (start + MAX_CHUNK_SIZE) ct.length < ct.length then
    match rfindNL ct (max (min (start + MAX_CHUNK_SIZE) ct.length - 500) start)
        (min (start + MAX_CHUNK_SIZE) ct.length) with
    | some i => if start < i then i + 1 else min (start + MAX_CHUNK_SIZE) ct.length
    | none => min (start + MAX_CHUNK_SIZE) ct.length
  else min (start + MAX_CHUNK_SIZE) ct.length

/-- The title of segment `segIdx` of a split oversized chapter: the chapter
title itself for the first segment, `（续N）`-tagged continuations after. -/
def segTitle (chapter_title : String) (segIdx : Nat) : String :=
  if segIdx = 0 then chapter_title
  else chapter_title ++ "（续" ++ toString segIdx ++ "）"

/-- The `while start < chapter_len` segment loop for a chapter longer than
`MAX_CHUNK_SIZE`; `base` is `chars_processed` before this chapter. -/
def segLoop (chapter_title : String) (ct : List Char) (base segIdx start : Nat) :
    List ChunkT :=
  if h : start < ct.length then
    ([segTitle chapter_title segIdx],
      String.mk (pyStrip (("【" ++ segTitle chapter_title segIdx ++ "】").data ++
        '\n' :: ((ct.drop start).take (chooseEnd ct start - start)) ++ ['\n', '\n'])),
      base + chooseEnd ct start) ::
      segLoop chapter_title ct base (segIdx + 1) (chooseEnd ct start)
  else []
termination_by ct.length - start
decreasing_by
  have hM : MAX_CHUNK_SIZE = 15000 := rfl
  have hgt : start < chooseEnd ct start := by
    unfold chooseEnd
    split
    · split
      · split <;> omega
      · omega
    · omega
  omega

/-- The running state of `build_chunks`. -/
structure BState where
  chunks : List ChunkT
  current_titles : List String
  current_text : List Char
  chars_processed : Nat

/-- One iteration of the chapter loop of `build_chunks`. -/
def chunkStep (st : BState) (chap : String × String) : BState :=
  let chapter_title := chap.1
  let chapter_text := chap.2
  let clen := chapter_text.length
  if MAX_CHUNK_SIZE < clen then
    let st1 :=
      if pyStrip st.current_text ≠ [] then
        { st with
          chunks :=
            st.chunks ++
              [(st.current_titles, String.mk (pyStrip st.current_text), st.chars_processed)],
          current_titles := [], current_text := [] }
      else st
    { st1 with
      chunks := st1.chunks ++ segLoop chapter_title chapter_text.data st1.chars_processed 0 0,
      chars_processed := st1.chars_processed + clen }
  else
    let cwh := ("【" ++ chapter_title ++ "】\n").data ++ chapter_text.data ++ ['\n', '\n']
    let st1 :=
      if st.current_text ≠ [] ∧ MAX_CHUNK_SIZE < st.current_text.length + cwh.length then
        { st with
          chunks :=
            st.chunks ++
              [(st.current_titles, String.mk (pyStrip st.current_text), st.chars_processed)],
          current_titles := [], current_text := [] }
      else st
    { st1 with
      current_titles := st1.current_titles ++ [chapter_title],
      current_text := st1.current_text ++ cwh,
      chars_processed := st1.chars_processed + clen }

/-- `build_chunks`: accumulate chapters into bounded chunks, splitting
oversized chapters into segments, and flush the remaining buffer. -/
def build_chunks (chapters : List (String × String)) : List ChunkT :=
  let st := chapters.foldl chunkStep ⟨[], [], [], 0⟩
  if pyStrip st.current_text ≠ [] then
    st.chunks ++ [(st.current_titles, String.mk (pyStrip st.current_text), st.chars_processed)]
  else st.chunks

/-- Total input length: the sum of the chapter text lengths. -/
def totalLen (chapters : List (String × String)) : Nat :=
  (chapters.map (fun p => p.2.length)).sum

/-- The loop invariant of `build_chunks`: offsets strictly increase and never
pass `chars_processed`; with an empty buffer the last offset equals
`chars_processed`, with a non-empty buffer every offset is strictly below it
and the buffer contains a 【 header character (so its strip is non-empty). -/
def chunkInv (st : BState) : Prop :=
  List.Chain' (· < ·) (offs st.chunks) ∧
  (∀ o ∈ offs st.chunks, o ≤ st.chars_processed) ∧
  (st.current_text = [] → (offs st.chunks).getLastD 0 = st.chars_processed) ∧
  (st.current_text ≠ [] → ∀ o ∈ offs st.chunks, o < st.chars_processed) ∧
  (st.current_text ≠ [] → '【' ∈ st.current_text)

/-! ## Checkpoint resume -/

/-- The `for idx, (_, _, end_pos) in enumerate(chunks)` scan of
`_calculate_start_step`: break at the first chunk whose truncated
percentage reaches `resume_pct`, answering `idx + 2`; `none` models the
loop finishing without `break` (the `for`/`else` arm).  The percentage
`int((end_pos / total_len) * 100)` is modelled by exact integer floor
division; at every input evaluated below the two agree. -/
def scanResume (resume_pct total_len : Nat) : Nat → List ChunkT → Option Nat
  | _, [] => none
  | idx, c :: rest =>
    if resume_pct ≤ chunkOff c * 100 / total_len then some (idx + 2)
    else scanResume resume_pct total_len (idx + 1) rest

/-- `_calculate_start_step` (the restoration side effect on `master` is
independent of the returned index and omitted): `none` models the early
`return None` meaning the analysis is already complete. -/
def calculate_start_step (resume_pct : Nat) (has_resume_data : Bool)
    (chunks : List ChunkT) (total_len total_chunks : Nat) : Option Nat :=
  if 0 < resume_pct ∧ has_resume_data then
    let start_step := (scanResume resume_pct total_len 0 chunks).getD (total_chunks + 1)
    if total_chunks < start_step then none else some start_step
  else some 1

/-- The resume index exactly as the spec words it (refinement comparison
definition, not translated from the source): the 1-based index of the first
chunk whose exact cumulative percentage exceeds the restored percentage. -/
def specResumeIndex (resume_pct : Nat) (chunks : List ChunkT) (total_len : Nat) : Option Nat :=
  (chunks.findIdx? fun c => resume_pct * total_len < chunkOff c * 100).map (· + 1)

/-! ## AI retry loop -/

/-- An AI response as seen by `call_ai_with_retry` (openai path): message
content (`none` models a null content field), finish reason, and whether the
content parses as JSON after stripping markdown fences (the JSON parse is
modelled as this oracle flag). -/
structure AIResp where
  content : Option String
  finish_reason : String
  validJson : Bool
deriving DecidableEq, Repr

/-- One external event per attempt: either the API raises an exception with
a message, or it returns a response. -/
inductive ApiEvent where
  | raise (msg : String)
  | resp (r : AIResp)
deriving DecidableEq, Repr

/-- Result of the retry loop: a returned response together with the number
of attempts consumed and the list of sleep delays (seconds) performed; or an
abort (`os._exit(1)`); or `pending` when the oracle ran out, i.e. the
source's unbounded loop is still retrying. -/
inductive RetryResult where
  | success (r : AIResp) (attempts : Nat) (delays : List Nat)
  | aborted (attempts : Nat)
  | pending (attempts : Nat)
deriving DecidableEq, Repr

/-- The `SUBSCRIPTION_REQUIRED` / license / `3501` substring test that makes
an error fatal inside the retry loop. -/
def fatalLicenseError (msg : List Char) : Bool :=
  containsSub msg "SUBSCRIPTION_REQUIRED".data ||
  containsSub msg "Gemini Code Assist license".data ||
  containsSub msg "3501".data

/-- The body of `call_ai_with_retry`'s `while True` loop (openai path), one
oracle event per attempt.  A null or empty content raises
`ValueError("Response content is None")`; invalid JSON raises a `ValueError`
embedding the first 100 characters of the content; every caught exception is
checked for the fatal license substrings (then `os._exit(1)`) and otherwise
sleeps 15 seconds and retries — the `retries`/`delay` parameters are never
consulted. -/
def callAIGo : List ApiEvent → Nat → List Nat → RetryResult
  | [], attempts, _ => .pending attempts
  | ev :: rest, attempts, delays =>
    let attempt := attempts + 1
    match ev with
    | .resp r =>
      match r.content with
      | none =>
        if fatalLicenseError "Response content is None".data then .aborted attempt
        else callAIGo rest attempt (delays ++ [15])
      | some c =>
        if c = "" then
          if fatalLicenseError "Response content is None".data then .aborted attempt
          else callAIGo rest attempt (delays ++ [15])
        else if r.validJson then .success r attempt delays
        else
          let err := ("Invalid JSON from OpenAI: ").data ++ c.data.take 100 ++ ("...").data
          if fatalLicenseError err then .aborted attempt
          else callAIGo rest attempt (delays ++ [15])
    | .raise msg =>
      if fatalLicenseError msg.data then .aborted attempt
      else callAIGo rest attempt (delays ++ [15])

/-- `call_ai_with_retry`.  The `retries` and `delay` parameters mirror the
source signature; the loop never reads them. -/
def call_ai_with_retry (retries : Nat) (delay : Nat) (oracle : List ApiEvent) : RetryResult :=
  callAIGo oracle 0 []

/-- Result of `_process_chunk_worker`: aborted (`os._exit(1)`), parsed chunk
data returned, or still waiting on the unbounded retry loop. -/
inductive WorkerResult where
  | aborted
  | data (r : AIResp) (attempts : Nat)
  | pending
deriving DecidableEq, Repr

/-- `_process_chunk_worker` (cache path omitted): run the retry loop, then
abort on a token-truncated response (`finish_reason == "length"`) or null
content; otherwise the content is the already-JSON-validated chunk data. -/
def process_chunk_worker (oracle : List ApiEvent) : WorkerResult :=
  match call_ai_with_retry (MAX_RETRIES + 1) 2 oracle with
  | .success r attempts _ =>
    if r.finish_reason = "length" then .aborted
    else
      match r.content with
      | none => .aborted
      | some _ => .data r attempts
  | .aborted _ => .aborted
  | .pending _ => .pending

/-! ## Helper lemmas: stripping, dicts -/

theorem string_ne_empty_iff (s : String) : s ≠ "" ↔ s.data ≠ [] := by
  cases s
  simp [String.ext_iff]

theorem mk_ne_empty_iff (l : List Char) : String.mk l ≠ "" ↔ l ≠ [] := by
  simp [String.ext_iff]

theorem pyStrip_eq_nil_iff (l : List Char) :
    pyStrip l = [] ↔ ∀ c ∈ l, isPyWhite c := by
  unfold pyStrip
  rw [List.reverse_eq_nil_iff, List.dropWhile_eq_nil_iff]
  constructor
  · intro h c hc
    rcases List.mem_append.mp ((List.takeWhile_append_dropWhile (p := isPyWhite) (l := l)) ▸ hc) with h1 | h1
    · exact List.mem_takeWhile_imp h1
    · exact h c (List.mem_reverse.mpr h1)
  · intro h c hc
    exact h c ((List.dropWhile_suffix isPyWhite).mem (List.mem_reverse.mp hc))

theorem pyStrip_ne_nil (l : List Char) (c : Char) (hc : c ∈ l) (hw : ¬ isPyWhite c) :
    pyStrip l ≠ [] := by
  intro h
  exact hw (pyStrip_eq_nil_iff l |>.mp h c hc)

theorem exists_nonwhite_of_pyStrip_ne_nil (l : List Char) (h : pyStrip l ≠ []) :
    ∃ c ∈ l, ¬ isPyWhite c := by
  by_contra hc
  push_neg at hc
  refine h ((pyStrip_eq_nil_iff l).mpr fun c hcl => ?_)
  have := hc c hcl
  simpa using this

theorem dropWhile_head_false (p : Char → Bool) :
    ∀ (l : List Char) (a : Char) (t : List Char), l.dropWhile p = a :: t → p a = false := by
  intro l
  induction l with
  | nil => intro a t h; simp at h
  | cons b l' ih =>
    intro a t h
    rw [List.dropWhile_cons] at h
    by_cases hb : p b
    · rw [if_pos hb] at h
      exact ih a t h
    · rw [if_neg hb] at h
      obtain ⟨rfl, _⟩ := List.cons.injEq b l' a t ▸ h
      simpa using hb

theorem dropWhile_of_head_false (p : Char → Bool) (a : Char) (t : List Char)
    (h : p a = false) : (a :: t).dropWhile p = a :: t := by
  rw [List.dropWhile_cons, h]
  simp

theorem dropWhile_idem (p : Char → Bool) (l : List Char) :
    (l.dropWhile p).dropWhile p = l.dropWhile p := by
  rcases h : l.dropWhile p with _ | ⟨a, t⟩
  · simp
  · exact dropWhile_of_head_false p a t (dropWhile_head_false p l a t h)

theorem pyStrip_idem (l : List Char) : pyStrip (pyStrip l) = pyStrip l := by
  have hA : (pyStrip l).dropWhile isPyWhite = pyStrip l := by
    unfold pyStrip
    set s1 := l.dropWhile isPyWhite with hs1
    set s2 := s1.reverse.dropWhile isPyWhite with hs2
    rcases hre : s2.reverse with _ | ⟨b, u⟩
    · simp [hre]
    · have hsuf : s2 <:+ s1.reverse := hs2 ▸ List.dropWhile_suffix isPyWhite
      have hpre : s2.reverse <+: s1 :=
        List.reverse_suffix.mp (by rw [List.reverse_reverse]; exact hsuf)
      obtain ⟨r, hr⟩ := hpre
      have hb : isPyWhite b = false := by
        rcases hs1c : s1 with _ | ⟨c, v⟩
        · rw [hs1c] at hr
          rw [hre] at hr
          simp at hr
        · have hc : isPyWhite c = false := dropWhile_head_false isPyWhite l c v (hs1 ▸ hs1c)
          have hbc : b = c := by
            rw [hre, hs1c, List.cons_append] at hr
            injection hr
          rw [hbc]
          exact hc
      exact dropWhile_of_head_false isPyWhite b u hb
  have hrev : (pyStrip l).reverse = (l.dropWhile isPyWhite).reverse.dropWhile isPyWhite := by
    unfold pyStrip
    rw [List.reverse_reverse]
  show ((((pyStrip l).dropWhile isPyWhite).reverse).dropWhile isPyWhite).reverse = pyStrip l
  rw [hA, hrev, dropWhile_idem]
  unfold pyStrip
  rfl

theorem pyStripS_idem (s : String) : pyStripS (pyStripS s) = pyStripS s := by
  unfold pyStripS
  rw [congrArg String.mk (pyStrip_idem s.data)]

theorem t2sChar_white (c : Char) : isPyWhite (t2sChar c) = isPyWhite c := by
  unfold t2sChar
  split_ifs with h1 h2 h3 h4 h5 h6 h7 h8 h9 h10 <;> subst_vars <;> rfl

theorem exists_nonwhite_map_t2s (l : List Char) (h : ∃ c ∈ l, ¬ isPyWhite c) :
    ∃ c ∈ l.map t2sChar, ¬ isPyWhite c := by
  obtain ⟨c, hc, hw⟩ := h
  refine ⟨t2sChar c, List.mem_map_of_mem t2sChar hc, ?_⟩
  rw [t2sChar_white]
  exact hw

theorem stripPrefixLoop_strip_fix (ps : List String) (name : List Char)
    (h : pyStrip name = name) : pyStrip (stripPrefixLoop ps name) = stripPrefixLoop ps name := by
  induction ps with
  | nil => exact h
  | cons p ps ih =>
    unfold stripPrefixLoop
    split
    · split
      · exact pyStrip_idem _
      · exact ih
    · exact ih

theorem stripSuffixLoop_strip_fix (ps : List String) (name : List Char)
    (h : pyStrip name = name) : pyStrip (stripSuffixLoop ps name) = stripSuffixLoop ps name := by
  induction ps with
  | nil => exact h
  | cons p ps ih =>
    unfold stripSuffixLoop
    split
    · split
      · exact pyStrip_idem _
      · exact ih
    · exact ih

/-- The result of `normalize_character_name` contains a non-whitespace
character whenever its input does. -/
theorem ncn_has_nonwhite (s : String) (h : ∃ c ∈ s.data, ¬ isPyWhite c) :
    ∃ c ∈ (normalize_character_name s).data, ¬ isPyWhite c := by
  unfold normalize_character_name
  by_cases hs : s = ""
  · subst hs
    simp at h
  · rw [if_neg hs]
    simp only
    split
    · next hne =>
      have hfix : pyStrip (stripSuffixLoop NAME_SUFFIXES
          (stripPrefixLoop NAME_PREFIXES (pyStrip (removeParens s.data)))) =
          stripSuffixLoop NAME_SUFFIXES
            (stripPrefixLoop NAME_PREFIXES (pyStrip (removeParens s.data))) :=
        stripSuffixLoop_strip_fix _ _ (stripPrefixLoop_strip_fix _ _ (pyStrip_idem _))
      have hme : pyStrip (stripSuffixLoop NAME_SUFFIXES
          (stripPrefixLoop NAME_PREFIXES (pyStrip (removeParens s.data)))) ≠ [] := by
        rw [hfix]
        exact hne
      exact exists_nonwhite_of_pyStrip_ne_nil _ hme
    · exact h

theorem dictGet_dictSet_self {α : Type} (k : String) (v : α) (l : List (String × α)) :
    dictGet k (dictSet k v l) = some v := by
  induction l with
  | nil => simp [dictGet, dictSet]
  | cons p rest ih =>
    obtain ⟨k', v'⟩ := p
    unfold dictSet
    by_cases h : k' = k
    · rw [if_pos h]
      simp [dictGet]
    · rw [if_neg h]
      unfold dictGet
      rw [if_neg h]
      exact ih

theorem keys_dictSet_mono {α : Type} (k : String) (v : α) (l : List (String × α))
    (a : String) (ha : a ∈ l.map Prod.fst) : a ∈ (dictSet k v l).map Prod.fst := by
  induction l with
  | nil => simp at ha
  | cons p rest ih =>
    obtain ⟨k', v'⟩ := p
    unfold dictSet
    by_cases h : k' = k
    · rw [if_pos h]
      rw [List.map_cons] at ha ⊢
      rcases List.mem_cons.mp ha with ha | ha
      · exact List.mem_cons.mpr (Or.inl (by rw [ha, h]))
      · exact List.mem_cons.mpr (Or.inr ha)
    · rw [if_neg h]
      rw [List.map_cons] at ha ⊢
      rcases List.mem_cons.mp ha with ha | ha
      · exact List.mem_cons.mpr (Or.inl ha)
      · exact List.mem_cons.mpr (Or.inr (ih ha))

theorem keys_dictSet_of_get_some {α : Type} (k : String) (v : α) (l : List (String × α))
    (e : α) (h : dictGet k l = some e) : (dictSet k v l).map Prod.fst = l.map Prod.fst := by
  induction l with
  | nil => simp [dictGet] at h
  | cons p rest ih =>
    obtain ⟨k', v'⟩ := p
    unfold dictGet at h
    unfold dictSet
    by_cases hk : k' = k
    · rw [if_pos hk]
      simp [hk]
    · rw [if_neg hk] at h
      rw [if_neg hk]
      simp [ih h]

theorem count_key_zero_of_get_none {α : Type} (k : String) (l : List (String × α))
    (h : dictGet k l = none) : (l.filter fun p => p.1 = k).length = 0 := by
  induction l with
  | nil => simp
  | cons p rest ih =>
    obtain ⟨k', v'⟩ := p
    unfold dictGet at h
    by_cases hk : k' = k
    · rw [if_pos hk] at h
      simp at h
    · rw [if_neg hk] at h
      rw [List.filter_cons]
      simp only [hk]
      simp [ih h, hk]

theorem count_key_dictSet_of_get_none {α : Type} (k : String) (v : α) (l : List (String × α))
    (h : dictGet k l = none) :
    ((dictSet k v l).filter fun p => p.1 = k).length = 1 := by
  induction l with
  | nil => simp [dictSet]
  | cons p rest ih =>
    obtain ⟨k', v'⟩ := p
    unfold dictGet at h
    unfold dictSet
    by_cases hk : k' = k
    · rw [if_pos hk] at h
      simp at h
    · rw [if_neg hk] at h
      rw [if_neg hk, List.filter_cons]
      simp only [hk]
      simp [ih h, hk]

theorem count_key_dictSet_of_get_some {α : Type} (k : String) (v : α) (l : List (String × α))
    (e : α) (h : dictGet k l = some e) :
    ((dictSet k v l).filter fun p => p.1 = k).length =
      (l.filter fun p => p.1 = k).length := by
  induction l with
  | nil => simp [dictGet] at h
  | cons p rest ih =>
    obtain ⟨k', v'⟩ := p
    unfold dictGet at h
    unfold dictSet
    by_cases hk : k' = k
    · rw [if_pos hk]
      rw [List.filter_cons, List.filter_cons]
      simp [hk]
    · rw [if_neg hk] at h
      rw [if_neg hk, List.filter_cons, List.filter_cons]
      simp only [hk]
      simp [ih h, hk]

theorem dictGet_of_mem_nodup {α : Type} (k : String) (e : α) (l : List (String × α))
    (hmem : (k, e) ∈ l) (hnd : (l.map Prod.fst).Nodup) : dictGet k l = some e := by
  induction l with
  | nil => simp at hmem
  | cons p rest ih =>
    obtain ⟨k', v'⟩ := p
    simp only [List.map_cons, List.nodup_cons] at hnd
    rcases List.mem_cons.mp hmem with h | h
    · have h1 : k = k' := congrArg Prod.fst h
      have h2 : e = v' := congrArg Prod.snd h
      unfold dictGet
      rw [if_pos h1.symm, h2]
    · have hne : k' ≠ k := by
        intro hkk
        exact hnd.1 (by
          subst hkk
          exact List.mem_map_of_mem Prod.fst h)
      unfold dictGet
      rw [if_neg hne]
      exact ih h hnd.2

theorem ncn_ne_empty (s : String) (h : s ≠ "") : normalize_character_name s ≠ "" := by
  unfold normalize_character_name
  rw [if_neg h]
  simp only
  rw [mk_ne_empty_iff]
  split
  · assumption
  · exact (string_ne_empty_iff s).mp h

theorem dedup_of_ncn_ne_empty (s : String) (h : pyStripS s ≠ "") :
    normalize_for_dedup (normalize_character_name s) ≠ "" := by
  have hnw : ∃ c ∈ s.data, ¬ isPyWhite c := by
    have : pyStrip s.data ≠ [] := by
      intro hnil
      exact h (by
        unfold pyStripS
        rw [hnil])
    exact exists_nonwhite_of_pyStrip_ne_nil _ this
  have hres := ncn_has_nonwhite s hnw
  obtain ⟨c, hc, hw⟩ := hres
  have hncne : normalize_character_name s ≠ "" := by
    intro he
    rw [he] at hc
    simp at hc
  unfold normalize_for_dedup
  rw [if_neg hncne]
  unfold pyStripS
  rw [mk_ne_empty_iff]
  exact pyStrip_ne_nil _ (t2sChar c)
    (by
      show t2sChar c ∈ (t2sStr (normalize_character_name s)).data
      exact List.mem_map_of_mem t2sChar hc)
    (by
      rw [t2sChar_white]
      exact hw)

/-! ## Claim C10 -/

/-- Claim C10: for every non-empty input name, `normalize_character_name`
returns a non-empty string (when every stripping step would leave an empty
remainder the original raw name is returned), and a mention whose stripped
name is non-empty never produces an empty dedup key. -/
theorem C10_normalize_nonempty (name : String) (h : name ≠ "") :
    normalize_character_name name ≠ "" ∧
    (pyStripS name ≠ "" → normalize_for_dedup (normalize_character_name name) ≠ "") :=
  ⟨ncn_ne_empty name h, fun hs => dedup_of_ncn_ne_empty name hs⟩

/-- Witness for C10 at the concrete mention `"(x)"` (whose parenthetical
stripping leaves an empty remainder, so the raw name is kept). -/
theorem C10_witness :
    normalize_character_name "(x)" ≠ "" ∧
    normalize_for_dedup (normalize_character_name "(x)") ≠ "" :=
  ⟨(C10_normalize_nonempty "(x)" (by decide)).1,
   (C10_normalize_nonempty "(x)" (by decide)).2 (by decide)⟩

/-! ## Claim C4 -/

/-- Claim C4 counterexample: the dedup normalization
`normalize_for_dedup ∘ normalize_character_name` is not idempotent — each
call strips at most one honorific prefix, so 老老王 normalizes to 老王, which
normalizes further to 王. -/
theorem C4_counterexample :
    normalize_for_dedup (normalize_character_name
        (normalize_for_dedup (normalize_character_name "老老王"))) ≠
      normalize_for_dedup (normalize_character_name "老老王") := by
  decide

/-- Claim C4 (amended): the dedup normalization is idempotent on every name
whose first normalization is a fixed point of `normalize_character_name` and
of the T2S conversion; in general a second application can strip one more
prefix/suffix layer. -/
theorem C4_amended (x : String)
    (h1 : normalize_character_name (normalize_for_dedup (normalize_character_name x)) =
      normalize_for_dedup (normalize_character_name x))
    (h2 : t2sStr (normalize_for_dedup (normalize_character_name x)) =
      normalize_for_dedup (normalize_character_name x)) :
    normalize_for_dedup (normalize_character_name
        (normalize_for_dedup (normalize_character_name x))) =
      normalize_for_dedup (normalize_character_name x) := by
  rw [h1]
  have hsf : pyStripS (normalize_for_dedup (normalize_character_name x)) =
      normalize_for_dedup (normalize_character_name x) := by
    by_cases hnc : normalize_character_name x = ""
    · unfold normalize_for_dedup
      rw [if_pos hnc, hnc]
      decide
    · unfold normalize_for_dedup
      rw [if_neg hnc]
      exact pyStripS_idem _
  by_cases hye : normalize_for_dedup (normalize_character_name x) = ""
  · rw [hye]
    rfl
  · conv_lhs => rw [normalize_for_dedup, if_neg hye]
    rw [h2, hsf]

/-- Witness for C4 (amended) at the concrete name 王. -/
theorem C4_amended_witness :
    normalize_for_dedup (normalize_character_name
        (normalize_for_dedup (normalize_character_name "王"))) =
      normalize_for_dedup (normalize_character_name "王") :=
  C4_amended "王" (by decide) (by decide)

/-! ## Claim C1 -/

/-- Claim C1 counterexample: the code's consolidation scheduler selects an
entity with two fragments of length 1 each (combined length 2), although the
spec's trigger formula `(count > 1 and length > 300) or length > 500` is
false there — the source checks only `consolidated is None` and
`len(descriptions) > 1`, never any length threshold. -/
theorem C1_counterexample :
    ("x", "a b") ∈ (MasterData.get_items_needing_consolidation
        ⟨"", "", "", [("x", ⟨"x", ["a", "b"], [], none⟩)], [], [], [], []⟩).1 ∧
    ¬ specConsolidationTrigger 2 2 := by
  constructor
  · decide
  · unfold specConsolidationTrigger
    omega

/-- Claim C1 (amended): an entity (character or location) is selected for a
distillation call iff it has no consolidated description and more than one
fragment — no combined-length condition; after `apply_consolidation` the
entity holds the single consolidated description with an empty fragment
list. -/
theorem C1_amended (m : MasterData) (k : String) (e : CharEntry)
    (kl : String) (el : LocEntry)
    (hndc : (m.characters.map Prod.fst).Nodup)
    (hndl : (m.locations.map Prod.fst).Nodup)
    (hc : (k, e) ∈ m.characters)
    (hl : (kl, el) ∈ m.locations) :
    ((∃ s, (k, s) ∈ (MasterData.get_items_needing_consolidation m).1) ↔
      e.consolidated = none ∧ 1 < e.descriptions.length) ∧
    ((∃ s, (kl, s) ∈ (MasterData.get_items_needing_consolidation m).2) ↔
      el.consolidated = none ∧ 1 < el.descriptions.length) ∧
    (∀ d, dictGet k (MasterData.apply_consolidation m "character" k d).characters =
      some { e with consolidated := some d, descriptions := [] }) ∧
    (∀ d, dictGet kl (MasterData.apply_consolidation m "location" kl d).locations =
      some { el with consolidated := some d, descriptions := [] }) := by
  refine ⟨?_, ?_, ?_, ?_⟩
  · constructor
    · rintro ⟨s, hs⟩
      unfold MasterData.get_items_needing_consolidation at hs
      simp only at hs
      obtain ⟨p, hp, hfp⟩ := List.mem_filterMap.mp hs
      by_cases hcond : p.2.consolidated = none ∧ 1 < p.2.descriptions.length
      · rw [if_pos hcond] at hfp
        have hk1 : p.1 = k := congrArg Prod.fst (Option.some.inj hfp)
        have hpe : p.2 = e := by
          have h1 : dictGet k m.characters = some p.2 := by
            rw [← hk1]
            exact dictGet_of_mem_nodup p.1 p.2 m.characters (by
              rw [show (p.1, p.2) = p from rfl]
              exact hp) hndc
          have h2 : dictGet k m.characters = some e :=
            dictGet_of_mem_nodup k e m.characters hc hndc
          exact Option.some.inj (h1.symm.trans h2)
        rw [← hpe]
        exact hcond
      · rw [if_neg hcond] at hfp
        exact absurd hfp (by simp)
    · rintro ⟨h1, h2⟩
      refine ⟨String.intercalate " " e.descriptions, ?_⟩
      unfold MasterData.get_items_needing_consolidation
      simp only
      refine List.mem_filterMap.mpr ⟨(k, e), hc, ?_⟩
      rw [if_pos ⟨h1, h2⟩]
  · constructor
    · rintro ⟨s, hs⟩
      unfold MasterData.get_items_needing_consolidation at hs
      simp only at hs
      obtain ⟨p, hp, hfp⟩ := List.mem_filterMap.mp hs
      by_cases hcond : p.2.consolidated = none ∧ 1 < p.2.descriptions.length
      · rw [if_pos hcond] at hfp
        have hk1 : p.1 = kl := congrArg Prod.fst (Option.some.inj hfp)
        have hpe : p.2 = el := by
          have h1 : dictGet kl m.locations = some p.2 := by
            rw [← hk1]
            exact dictGet_of_mem_nodup p.1 p.2 m.locations (by
              rw [show (p.1, p.2) = p from rfl]
              exact hp) hndl
          have h2 : dictGet kl m.locations = some el :=
            dictGet_of_mem_nodup kl el m.locations hl hndl
          exact Option.some.inj (h1.symm.trans h2)
        rw [← hpe]
        exact hcond
      · rw [if_neg hcond] at hfp
        exact absurd hfp (by simp)
    · rintro ⟨h1, h2⟩
      refine ⟨String.intercalate " " el.descriptions, ?_⟩
      unfold MasterData.get_items_needing_consolidation
      simp only
      refine List.mem_filterMap.mpr ⟨(kl, el), hl, ?_⟩
      rw [if_pos ⟨h1, h2⟩]
  · intro d
    unfold MasterData.apply_consolidation
    rw [if_pos rfl]
    rw [dictGet_of_mem_nodup k e m.characters hc hndc]
    simp only
    exact dictGet_dictSet_self k _ m.characters
  · intro d
    unfold MasterData.apply_consolidation
    rw [if_neg (by decide : ¬ ("location" : String) = "character")]
    rw [dictGet_of_mem_nodup kl el m.locations hl hndl]
    simp only
    exact dictGet_dictSet_self kl _ m.locations

/-- Witness for C1 (amended): a character entity with exactly two fragments
of lengths 250 and 200 is selected, and applying its consolidation leaves a
single consolidated description and an empty fragment list (plus the mirror
location case). -/
theorem C1_witness :
    (∃ s, ("hero", s) ∈ (MasterData.get_items_needing_consolidation
        ⟨"", "", "",
          [("hero", ⟨"hero", [String.mk (List.replicate 250 'a'),
            String.mk (List.replicate 200 'b')], [], none⟩)],
          [("castle", ⟨"castle", ["p", "q"], none⟩)], [], [], []⟩).1) ∧
    dictGet "hero" (MasterData.apply_consolidation
        ⟨"", "", "",
          [("hero", ⟨"hero", [String.mk (List.replicate 250 'a'),
            String.mk (List.replicate 200 'b')], [], none⟩)],
          [("castle", ⟨"castle", ["p", "q"], none⟩)], [], [], []⟩
        "character" "hero" "d").characters =
      some ⟨"hero", [], [], some "d"⟩ := by
  have h := C1_amended
    ⟨"", "", "",
      [("hero", ⟨"hero", [String.mk (List.replicate 250 'a'),
        String.mk (List.replicate 200 'b')], [], none⟩)],
      [("castle", ⟨"castle", ["p", "q"], none⟩)], [], [], []⟩
    "hero"
    ⟨"hero", [String.mk (List.replicate 250 'a'), String.mk (List.replicate 200 'b')], [], none⟩
    "castle" ⟨"castle", ["p", "q"], none⟩
    (by decide) (by decide)
    (List.mem_singleton.mpr rfl) (List.mem_singleton.mpr rfl)
  exact ⟨h.1.mpr ⟨rfl, by decide⟩, h.2.2.1 "d"⟩

/-! ## Claim C2 -/

theorem scanResume_eq_findIdx (P total : Nat) (l : List ChunkT) :
    ∀ i, scanResume P total i l =
      (l.findIdx? (fun c => decide (P ≤ chunkOff c * 100 / total)) i).map (· + 2) := by
  induction l with
  | nil => intro i; simp [scanResume]
  | cons c rest ih =>
    intro i
    unfold scanResume
    rw [List.findIdx?_cons]
    by_cases hc : P ≤ chunkOff c * 100 / total
    · rw [if_pos hc, if_pos (by simpa using hc)]
      simp
    · rw [if_neg hc, if_neg (by simpa using hc)]
      exact ih (i + 1)

/-- Claim C2 (amended): for a restored percentage `P > 0` the code resumes at
`j + 2` where `j` is the 0-based index of the first chunk whose truncated
cumulative percentage is at least `P` (i.e. one past that chunk), reporting
completion when no such chunk exists or when `j + 2` passes the final chunk —
not at the first chunk whose percentage exceeds `P`: when no chunk's
percentage ties `P` exactly, the first uncovered chunk is itself skipped.
Covered chunks are never re-processed. -/
theorem C2_amended (P total : Nat) (chunks : List ChunkT) (hP : 0 < P) :
    calculate_start_step P true chunks total chunks.length =
      match chunks.findIdx? (fun c => decide (P ≤ chunkOff c * 100 / total)) with
      | some j => if chunks.length < j + 2 then none else some (j + 2)
      | none => none := by
  unfold calculate_start_step
  rw [if_pos ⟨hP, rfl⟩]
  rw [scanResume_eq_findIdx P total chunks 0]
  rcases h : chunks.findIdx? (fun c => decide (P ≤ chunkOff c * 100 / total)) with _ | j
  · simp
  · simp

/-- Claim C2 counterexample: three chunks of cumulative offsets 1, 2, 3 in a
3-character book; the 34% checkpoint is exactly what the code writes after
chunk 1 (`ceil(100/3) = 34`).  The spec's resume index — the first chunk
whose cumulative percentage exceeds 34% — is chunk 2 (66.7%), but the code
computes start step 3, silently skipping the uncovered chunk 2. -/
theorem C2_counterexample :
    calculate_start_step 34 true [([], "", 1), ([], "", 2), ([], "", 3)] 3 3 = some 3 ∧
    specResumeIndex 34 [([], "", 1), ([], "", 2), ([], "", 3)] 3 = some 2 ∧
    calculate_start_step 34 true [([], "", 1), ([], "", 2), ([], "", 3)] 3 3 ≠
      specResumeIndex 34 [([], "", 1), ([], "", 2), ([], "", 3)] 3 := by
  refine ⟨by decide, by decide, by decide⟩

/-- Witness for C2 (amended) at the counterexample's concrete input. -/
theorem C2_witness :
    calculate_start_step 34 true [([], "", 1), ([], "", 2), ([], "", 3)] 3
        [(([] : List String), "", 1), ([], "", 2), ([], "", 3)].length =
      match [(([] : List String), "", 1), ([], "", 2), ([], "", 3)].findIdx?
          (fun c => decide (34 ≤ chunkOff c * 100 / 3)) with
      | some j => if [(([] : List String), "", 1), ([], "", 2), ([], "", 3)].length < j + 2
          then none else some (j + 2)
      | none => none :=
  C2_amended 34 3 [([], "", 1), ([], "", 2), ([], "", 3)] (by decide)

/-! ## Claim C9 -/

theorem callAIGo_timeout_run (n : Nat) :
    ∀ (attempts : Nat) (delays : List Nat),
      callAIGo (List.replicate n (ApiEvent.raise "timeout") ++
          [ApiEvent.resp ⟨some "j", "stop", true⟩]) attempts delays =
        RetryResult.success ⟨some "j", "stop", true⟩ (attempts + n + 1)
          (delays ++ List.replicate n 15) := by
  induction n with
  | zero =>
    intro a d
    simp [callAIGo]
  | succ n ih =>
    intro a d
    rw [List.replicate_succ, List.cons_append]
    have hf : fatalLicenseError "timeout".data = false := by decide
    simp only [callAIGo, hf, Bool.false_eq_true, if_false]
    rw [ih (a + 1) (d ++ [15])]
    rw [List.append_assoc, List.singleton_append, ← List.replicate_succ]
    congr 1
    omega

/-- Claim C9 counterexample: with `retries = 3` the retry loop succeeds on
attempt 5 after four transient failures, sleeping a constant 15 seconds each
time — the backoff is neither bounded by the `retries` parameter nor
exponential; and a content error (a JSON-invalid response) is retried rather
than treated as fatal. -/
theorem C9_counterexample :
    call_ai_with_retry 3 2 (List.replicate 4 (ApiEvent.raise "timeout") ++
        [ApiEvent.resp ⟨some "j", "stop", true⟩]) =
      RetryResult.success ⟨some "j", "stop", true⟩ 5 [15, 15, 15, 15] ∧
    call_ai_with_retry 3 2 [ApiEvent.resp ⟨some "bad", "stop", false⟩,
        ApiEvent.resp ⟨some "j", "stop", true⟩] =
      RetryResult.success ⟨some "j", "stop", true⟩ 2 [15] := by
  constructor
  · decide
  · decide

/-- Claim C9 (amended): transient errors (and content errors such as
empty-content or JSON-invalid responses) are retried indefinitely with a
fixed 15-second delay — for every `n`, `n` consecutive timeouts followed by
one valid response succeed on attempt `n + 1` with delay list
`replicate n 15`, whatever the `retries`/`delay` arguments; a token-truncated
response aborts the run in the chunk worker; a license/subscription error
aborts from inside the retry loop. -/
theorem C9_amended :
    (∀ (n retries delay : Nat),
      call_ai_with_retry retries delay (List.replicate n (ApiEvent.raise "timeout") ++
          [ApiEvent.resp ⟨some "j", "stop", true⟩]) =
        RetryResult.success ⟨some "j", "stop", true⟩ (n + 1) (List.replicate n 15)) ∧
    process_chunk_worker [ApiEvent.resp ⟨some "j", "length", true⟩] = WorkerResult.aborted ∧
    call_ai_with_retry 3 2 [ApiEvent.raise "HTTP 403: SUBSCRIPTION_REQUIRED"] =
      RetryResult.aborted 1 := by
  refine ⟨?_, by decide, by decide⟩
  intro n retries delay
  unfold call_ai_with_retry
  rw [callAIGo_timeout_run n 0 []]
  simp

/-! ## Merge-step lemmas -/

theorem merge_chunk_single_char (m : MasterData) (c : RawChar) :
    m.merge_chunk ⟨[c], [], [], [], "", "", "", ""⟩ = mergeCharStep m c := rfl

theorem merge_chunk_single_loc (m : MasterData) (lc : RawLoc) :
    m.merge_chunk ⟨[], [lc], [], [], "", "", "", ""⟩ = mergeLocStep m lc := rfl

theorem mergeCharStep_fresh (m : MasterData) (c : RawChar) (k : String)
    (hraw : pyStripS c.name ≠ "")
    (hk : normalize_for_dedup (normalize_character_name (pyStripS c.name)) = k)
    (habs : dictGet k m.characters = none)
    (hdesc : pyStripS c.description ≠ "")
    (hev : c.events = []) :
    mergeCharStep m c =
      { m with characters :=
          dictSet k ⟨k, [t2sStr (pyStripS c.description)], [], none⟩ m.characters } := by
  simp only [mergeCharStep, hk, habs, hev]
  rw [if_neg hraw, if_neg (ncn_ne_empty _ hraw), if_pos hdesc]
  rfl

theorem mergeCharStep_existing (m : MasterData) (c : RawChar) (k : String) (e : CharEntry)
    (hraw : pyStripS c.name ≠ "")
    (hk : normalize_for_dedup (normalize_character_name (pyStripS c.name)) = k)
    (hget : dictGet k m.characters = some e)
    (hcons : e.consolidated = none)
    (hdesc : pyStripS c.description ≠ "")
    (hev : c.events = []) :
    mergeCharStep m c =
      { m with characters :=
          dictSet k ({ e with descriptions := e.descriptions ++ [t2sStr (pyStripS c.description)] }) m.characters } := by
  simp only [mergeCharStep, hk, hget, hev, hcons]
  rw [if_neg hraw, if_neg (ncn_ne_empty _ hraw), if_pos hdesc]
  simp

theorem mergeCharStep_consolidated (m : MasterData) (c : RawChar) (k : String)
    (e : CharEntry) (cc : String)
    (hraw : pyStripS c.name ≠ "")
    (hk : normalize_for_dedup (normalize_character_name (pyStripS c.name)) = k)
    (hget : dictGet k m.characters = some e)
    (hcons : e.consolidated = some cc)
    (hccne : cc ≠ "")
    (hdesc : pyStripS c.description ≠ "")
    (hev : c.events = []) :
    mergeCharStep m c =
      { m with characters :=
          dictSet k ({ e with consolidated := none, descriptions := cc :: e.descriptions ++ [t2sStr (pyStripS c.description)] }) m.characters } := by
  simp only [mergeCharStep, hk, hget, hev, hcons]
  rw [if_neg hraw, if_neg (ncn_ne_empty _ hraw), if_pos hccne, if_pos hdesc]
  simp

theorem mergeLocStep_consolidated (m : MasterData) (lc : RawLoc) (k : String)
    (e : LocEntry) (cc : String)
    (hraw : pyStripS lc.name ≠ "")
    (hk : normalize_location_name (pyStripS lc.name) = k)
    (hget : dictGet k m.locations = some e)
    (hcons : e.consolidated = some cc)
    (hccne : cc ≠ "")
    (hdesc : pyStripS lc.description ≠ "") :
    mergeLocStep m lc =
      { m with locations :=
          dictSet k ({ e with consolidated := none, descriptions := cc :: e.descriptions ++ [t2sStr (pyStripS lc.description)] }) m.locations } := by
  simp only [mergeLocStep, hk, hget, hcons]
  rw [if_neg hraw, if_pos hccne, if_pos hdesc]

/-! ## Claim C5 -/

/-- Claim C5: two raw character mentions whose names normalize to the same
dedup key `k` (absent before the merges) produce, after both merges, exactly
one character entity under `k`, holding both description fragments in
arrival order (script-canonicalized), whose display name is the normalized
display form of the first-seen mention (`charDedupKey n1`, which the code
stores for both key and display). -/
theorem C5_merge_dedup (m : MasterData) (n1 n2 d1 d2 k : String)
    (h1 : pyStripS n1 ≠ "") (h2 : pyStripS n2 ≠ "")
    (hk1 : charDedupKey n1 = k) (hk2 : charDedupKey n2 = k)
    (habs : dictGet k m.characters = none)
    (hd1 : pyStripS d1 ≠ "") (hd2 : pyStripS d2 ≠ "") :
    (((m.merge_chunk ⟨[⟨n1, d1, []⟩], [], [], [], "", "", "", ""⟩).merge_chunk
        ⟨[⟨n2, d2, []⟩], [], [], [], "", "", "", ""⟩).characters.filter
        (fun p => p.1 = k)).length = 1 ∧
    dictGet k ((m.merge_chunk ⟨[⟨n1, d1, []⟩], [], [], [], "", "", "", ""⟩).merge_chunk
        ⟨[⟨n2, d2, []⟩], [], [], [], "", "", "", ""⟩).characters =
      some ⟨charDedupKey n1, [t2sStr (pyStripS d1), t2sStr (pyStripS d2)], [], none⟩ := by
  rw [merge_chunk_single_char, merge_chunk_single_char]
  rw [mergeCharStep_fresh m ⟨n1, d1, []⟩ k h1 hk1 habs hd1 rfl]
  rw [mergeCharStep_existing _ ⟨n2, d2, []⟩ k
    ⟨k, [t2sStr (pyStripS d1)], [], none⟩ h2 hk2
    (dictGet_dictSet_self k _ m.characters) rfl hd2 rfl]
  dsimp only
  constructor
  · exact (count_key_dictSet_of_get_some k _
      (dictSet k (⟨k, [t2sStr (pyStripS d1)], [], none⟩ : CharEntry) m.characters)
      ⟨k, [t2sStr (pyStripS d1)], [], none⟩
      (dictGet_dictSet_self k _ m.characters)).trans
      (count_key_dictSet_of_get_none k _ m.characters habs)
  · rw [hk1]
    exact dictGet_dictSet_self k _ _

/-- Witness for C5: the mentions 老王 and 王 both normalize to the dedup key
王; merging them into an empty master yields one entity with both fragments,
displayed under the normalized first-seen form. -/
theorem C5_witness :
    ((((initMaster "" "" "").merge_chunk
        ⟨[⟨"老王", "a", []⟩], [], [], [], "", "", "", ""⟩).merge_chunk
        ⟨[⟨"王", "b", []⟩], [], [], [], "", "", "", ""⟩).characters.filter
        (fun p => p.1 = "王")).length = 1 ∧
    dictGet "王" (((initMaster "" "" "").merge_chunk
        ⟨[⟨"老王", "a", []⟩], [], [], [], "", "", "", ""⟩).merge_chunk
        ⟨[⟨"王", "b", []⟩], [], [], [], "", "", "", ""⟩).characters =
      some ⟨charDedupKey "老王", [t2sStr (pyStripS "a"), t2sStr (pyStripS "b")], [], none⟩ :=
  C5_merge_dedup (initMaster "" "" "") "老王" "王" "a" "b" "王"
    (by decide) (by decide) (by decide) (by decide) rfl (by decide) (by decide)

/-! ## Claim C6 -/

/-- Claim C6: when a character (resp. location) mention arrives for a dedup
key already holding a non-empty consolidated description, the merge clears
the consolidated field, reinstates the consolidated text as the first
fragment, and appends the incoming (script-canonicalized) description as the
last fragment when it is non-empty. -/
theorem C6_consolidated_reopened (m : MasterData)
    (k cc n d : String) (e : CharEntry)
    (kl ccl nl dl : String) (el : LocEntry)
    (hget : dictGet k m.characters = some e)
    (hcons : e.consolidated = some cc) (hccne : cc ≠ "")
    (hn : pyStripS n ≠ "") (hk : charDedupKey n = k)
    (hd : pyStripS d ≠ "")
    (hgetl : dictGet kl m.locations = some el)
    (hconsl : el.consolidated = some ccl) (hcclne : ccl ≠ "")
    (hnl : pyStripS nl ≠ "") (hkl : locDedupKey nl = kl)
    (hdl : pyStripS dl ≠ "") :
    dictGet k (m.merge_chunk ⟨[⟨n, d, []⟩], [], [], [], "", "", "", ""⟩).characters =
      some ({ e with consolidated := none, descriptions := cc :: e.descriptions ++ [t2sStr (pyStripS d)] }) ∧
    dictGet kl (m.merge_chunk ⟨[], [⟨nl, dl⟩], [], [], "", "", "", ""⟩).locations =
      some ({ el with consolidated := none, descriptions := ccl :: el.descriptions ++ [t2sStr (pyStripS dl)] }) := by
  constructor
  · rw [merge_chunk_single_char]
    rw [mergeCharStep_consolidated m ⟨n, d, []⟩ k e cc hn hk hget hcons hccne hd rfl]
    exact dictGet_dictSet_self k _ m.characters
  · rw [merge_chunk_single_loc]
    rw [mergeLocStep_consolidated m ⟨nl, dl⟩ kl el ccl hnl hkl hgetl hconsl hcclne hdl]
    exact dictGet_dictSet_self kl _ m.locations

/-- Witness for C6 at a concrete master holding consolidated 王 and 北京
entries. -/
theorem C6_witness :
    dictGet "王" ((⟨"", "", "", [("王", ⟨"王", ["o"], [], some "c"⟩)],
        [("北京", ⟨"北京", ["lo"], some "lc"⟩)], [], [], []⟩ : MasterData).merge_chunk
        ⟨[⟨"王", "x", []⟩], [], [], [], "", "", "", ""⟩).characters =
      some ⟨"王", ["c", "o", t2sStr (pyStripS "x")], [], none⟩ ∧
    dictGet "北京" ((⟨"", "", "", [("王", ⟨"王", ["o"], [], some "c"⟩)],
        [("北京", ⟨"北京", ["lo"], some "lc"⟩)], [], [], []⟩ : MasterData).merge_chunk
        ⟨[], [⟨"北京", "y"⟩], [], [], "", "", "", ""⟩).locations =
      some ⟨"北京", ["lc", "lo", t2sStr (pyStripS "y")], none⟩ :=
  C6_consolidated_reopened
    ⟨"", "", "", [("王", ⟨"王", ["o"], [], some "c"⟩)],
      [("北京", ⟨"北京", ["lo"], some "lc"⟩)], [], [], []⟩
    "王" "c" "王" "x" ⟨"王", ["o"], [], some "c"⟩
    "北京" "lc" "北京" "y" ⟨"北京", ["lo"], some "lc"⟩
    (by decide) rfl (by decide) (by decide) (by decide) (by decide)
    (by decide) rfl (by decide) (by decide) (by decide) (by decide)

/-! ## Claim C8 -/

theorem mergeCharStep_keys (m : MasterData) (c : RawChar) (a : String)
    (ha : a ∈ m.characters.map Prod.fst) :
    a ∈ (mergeCharStep m c).characters.map Prod.fst := by
  simp only [mergeCharStep]
  split
  · exact ha
  · split
    · exact ha
    · exact keys_dictSet_mono _ _ _ a ha

theorem mergeCharStep_locations (m : MasterData) (c : RawChar) :
    (mergeCharStep m c).locations = m.locations := by
  simp only [mergeCharStep]
  split
  · rfl
  · split
    · rfl
    · rfl

theorem mergeCharStep_themes (m : MasterData) (c : RawChar) :
    (mergeCharStep m c).themes = m.themes := by
  simp only [mergeCharStep]
  split
  · rfl
  · split
    · rfl
    · rfl

theorem merge_characters_keys (cs : List RawChar) : ∀ (m : MasterData) (a : String),
    a ∈ m.characters.map Prod.fst →
      a ∈ (m.merge_characters cs).characters.map Prod.fst := by
  induction cs with
  | nil => intro m a ha; exact ha
  | cons c cs ih =>
    intro m a ha
    exact ih (mergeCharStep m c) a (mergeCharStep_keys m c a ha)

theorem merge_characters_locations (cs : List RawChar) : ∀ (m : MasterData),
    (m.merge_characters cs).locations = m.locations := by
  induction cs with
  | nil => intro m; rfl
  | cons c cs ih =>
    intro m
    exact (ih (mergeCharStep m c)).trans (mergeCharStep_locations m c)

theorem merge_characters_themes (cs : List RawChar) : ∀ (m : MasterData),
    (m.merge_characters cs).themes = m.themes := by
  induction cs with
  | nil => intro m; rfl
  | cons c cs ih =>
    intro m
    exact (ih (mergeCharStep m c)).trans (mergeCharStep_themes m c)

theorem mergeLocStep_keys (m : MasterData) (lc : RawLoc) (a : String)
    (ha : a ∈ m.locations.map Prod.fst) :
    a ∈ (mergeLocStep m lc).locations.map Prod.fst := by
  simp only [mergeLocStep]
  split
  · exact ha
  · exact keys_dictSet_mono _ _ _ a ha

theorem mergeLocStep_characters (m : MasterData) (lc : RawLoc) :
    (mergeLocStep m lc).characters = m.characters := by
  simp only [mergeLocStep]
  split
  · rfl
  · rfl

theorem mergeLocStep_themes (m : MasterData) (lc : RawLoc) :
    (mergeLocStep m lc).themes = m.themes := by
  simp only [mergeLocStep]
  split
  · rfl
  · rfl

theorem merge_locations_keys (ls : List RawLoc) : ∀ (m : MasterData) (a : String),
    a ∈ m.locations.map Prod.fst →
      a ∈ (m.merge_locations ls).locations.map Prod.fst := by
  induction ls with
  | nil => intro m a ha; exact ha
  | cons lc ls ih =>
    intro m a ha
    exact ih (mergeLocStep m lc) a (mergeLocStep_keys m lc a ha)

theorem merge_locations_characters (ls : List RawLoc) : ∀ (m : MasterData),
    (m.merge_locations ls).characters = m.characters := by
  induction ls with
  | nil => intro m; rfl
  | cons lc ls ih =>
    intro m
    exact (ih (mergeLocStep m lc)).trans (mergeLocStep_characters m lc)

theorem merge_locations_themes (ls : List RawLoc) : ∀ (m : MasterData),
    (m.merge_locations ls).themes = m.themes := by
  induction ls with
  | nil => intro m; rfl
  | cons lc ls ih =>
    intro m
    exact (ih (mergeLocStep m lc)).trans (mergeLocStep_themes m lc)

theorem merge_themes_mem (ts : List String) : ∀ (m : MasterData) (t : String),
    t ∈ m.themes → t ∈ (m.merge_themes ts).themes := by
  induction ts with
  | nil => intro m t ht; exact ht
  | cons t' ts ih =>
    intro m t ht
    unfold MasterData.merge_themes at ih ⊢
    rw [List.foldl_cons]
    apply ih
    split
    · split
      · exact ht
      · exact List.mem_append_left _ ht
    · exact ht

theorem merge_themes_characters (ts : List String) : ∀ (m : MasterData),
    (m.merge_themes ts).characters = m.characters := by
  induction ts with
  | nil => intro m; rfl
  | cons t' ts ih =>
    intro m
    unfold MasterData.merge_themes at ih ⊢
    rw [List.foldl_cons]
    rw [ih]
    split
    · split
      · rfl
      · rfl
    · rfl

theorem merge_themes_locations (ts : List String) : ∀ (m : MasterData),
    (m.merge_themes ts).locations = m.locations := by
  induction ts with
  | nil => intro m; rfl
  | cons t' ts ih =>
    intro m
    unfold MasterData.merge_themes at ih ⊢
    rw [List.foldl_cons]
    rw [ih]
    split
    · split
      · rfl
      · rfl
    · rfl

theorem merge_summary_fields (m : MasterData) (s : String) :
    (m.merge_summary s).characters = m.characters ∧
    (m.merge_summary s).locations = m.locations ∧
    (m.merge_summary s).themes = m.themes := by
  simp only [MasterData.merge_summary]
  split
  · exact ⟨rfl, rfl, rfl⟩
  · exact ⟨rfl, rfl, rfl⟩

theorem merge_metadata_fields (m : MasterData) (cd : ChunkData) :
    (m.merge_metadata cd).characters = m.characters ∧
    (m.merge_metadata cd).locations = m.locations ∧
    (m.merge_metadata cd).themes = m.themes := by
  unfold MasterData.merge_metadata
  split
  · split
    · split
      · exact ⟨rfl, rfl, rfl⟩
      · exact ⟨rfl, rfl, rfl⟩
    · split
      · exact ⟨rfl, rfl, rfl⟩
      · exact ⟨rfl, rfl, rfl⟩
  · split
    · split
      · exact ⟨rfl, rfl, rfl⟩
      · exact ⟨rfl, rfl, rfl⟩
    · split
      · exact ⟨rfl, rfl, rfl⟩
      · exact ⟨rfl, rfl, rfl⟩

/-- Claim C8: `merge_chunk` only grows Master State — every character dedup
key, location dedup key and theme present before the merge is still present
after it — and `apply_consolidation` preserves the key lists and the theme
set exactly. -/
theorem C8_monotone_growth (m : MasterData) (cd : ChunkData) (et n d : String) :
    (∀ a, a ∈ m.characters.map Prod.fst →
      a ∈ (m.merge_chunk cd).characters.map Prod.fst) ∧
    (∀ a, a ∈ m.locations.map Prod.fst →
      a ∈ (m.merge_chunk cd).locations.map Prod.fst) ∧
    (∀ t, t ∈ m.themes → t ∈ (m.merge_chunk cd).themes) ∧
    (m.apply_consolidation et n d).characters.map Prod.fst = m.characters.map Prod.fst ∧
    (m.apply_consolidation et n d).locations.map Prod.fst = m.locations.map Prod.fst ∧
    (m.apply_consolidation et n d).themes = m.themes := by
  have hchain : ∀ (x : MasterData),
      (x.merge_chunk cd).characters =
        ((x.merge_characters cd.characters).merge_locations cd.locations).characters ∧
      (x.merge_chunk cd).locations =
        ((x.merge_characters cd.characters).merge_locations cd.locations).locations ∧
      (x.merge_chunk cd).themes =
        (((x.merge_characters cd.characters).merge_locations cd.locations).merge_themes
          cd.themes).themes := by
    intro x
    unfold MasterData.merge_chunk MasterData.merge_events
    refine ⟨?_, ?_, ?_⟩
    · rw [(merge_metadata_fields _ cd).1, (merge_summary_fields _ cd.summary).1,
        merge_themes_characters]
    · rw [(merge_metadata_fields _ cd).2.1, (merge_summary_fields _ cd.summary).2.1,
        merge_themes_locations]
    · rw [(merge_metadata_fields _ cd).2.2, (merge_summary_fields _ cd.summary).2.2]
  refine ⟨?_, ?_, ?_, ?_, ?_, ?_⟩
  · intro a ha
    rw [(hchain m).1, merge_locations_characters]
    exact merge_characters_keys cd.characters m a ha
  · intro a ha
    rw [(hchain m).2.1]
    apply merge_locations_keys cd.locations _ a
    rw [merge_characters_locations]
    exact ha
  · intro t ht
    rw [(hchain m).2.2]
    apply merge_themes_mem cd.themes _ t
    rw [merge_locations_themes, merge_characters_themes]
    exact ht
  · unfold MasterData.apply_consolidation
    split
    · rcases h : dictGet n m.characters with _ | e
      · rfl
      · exact keys_dictSet_of_get_some n _ m.characters e h
    · rcases h : dictGet n m.locations with _ | e
      · rfl
      · rfl
  · unfold MasterData.apply_consolidation
    split
    · rcases h : dictGet n m.characters with _ | e
      · rfl
      · rfl
    · rcases h : dictGet n m.locations with _ | e
      · rfl
      · exact keys_dictSet_of_get_some n _ m.locations e h
  · unfold MasterData.apply_consolidation
    split
    · rcases h : dictGet n m.characters with _ | e
      · rfl
      · rfl
    · rcases h : dictGet n m.locations with _ | e
      · rfl
      · rfl

/-- Witness for C8 at a concrete one-entity master and a chunk adding a new
character, plus a consolidation application. -/
theorem C8_witness :
    ("王" ∈ ((⟨"", "", "", [("王", ⟨"王", ["o"], [], none⟩)], [], ["t"], [], []⟩ :
        MasterData).merge_chunk
        ⟨[⟨"李四", "z", []⟩], [], ["u"], [], "", "", "", ""⟩).characters.map Prod.fst) ∧
    ("t" ∈ ((⟨"", "", "", [("王", ⟨"王", ["o"], [], none⟩)], [], ["t"], [], []⟩ :
        MasterData).merge_chunk
        ⟨[⟨"李四", "z", []⟩], [], ["u"], [], "", "", "", ""⟩).themes) ∧
    ((⟨"", "", "", [("王", ⟨"王", ["o"], [], none⟩)], [], ["t"], [], []⟩ :
        MasterData).apply_consolidation "character" "王" "c").characters.map Prod.fst =
      [("王", (⟨"王", ["o"], [], none⟩ : CharEntry))].map Prod.fst := by
  refine ⟨?_, ?_, ?_⟩
  · exact (C8_monotone_growth
      ⟨"", "", "", [("王", ⟨"王", ["o"], [], none⟩)], [], ["t"], [], []⟩
      ⟨[⟨"李四", "z", []⟩], [], ["u"], [], "", "", "", ""⟩ "character" "王" "c").1
      "王" (by decide)
  · exact (C8_monotone_growth
      ⟨"", "", "", [("王", ⟨"王", ["o"], [], none⟩)], [], ["t"], [], []⟩
      ⟨[⟨"李四", "z", []⟩], [], ["u"], [], "", "", "", ""⟩ "character" "王" "c").2.2.1
      "t" (by decide)
  · exact (C8_monotone_growth
      ⟨"", "", "", [("王", ⟨"王", ["o"], [], none⟩)], [], ["t"], [], []⟩
      ⟨[⟨"李四", "z", []⟩], [], ["u"], [], "", "", "", ""⟩ "character" "王" "c").2.2.2.1

/-! ## Chunker lemmas -/

theorem getLastD_irrel (xs : List Nat) (hne : xs ≠ []) (a b : Nat) :
    xs.getLastD a = xs.getLastD b := by
  cases xs with
  | nil => exact absurd rfl hne
  | cons c t => rw [List.getLastD_cons, List.getLastD_cons]

theorem getLastD_append_right (l1 l2 : List Nat) (hne : l2 ≠ []) :
    ∀ d, (l1 ++ l2).getLastD d = l2.getLastD d := by
  induction l1 with
  | nil => intro d; rfl
  | cons a t ih =>
    intro d
    rw [List.cons_append, List.getLastD_cons, ih a]
    rcases l2 with _ | _
    · exact absurd rfl hne
    · exact getLastD_irrel _ (by simp) a d

theorem chain_append_lt (l1 l2 : List Nat)
    (h1 : List.Chain' (· < ·) l1) (h2 : List.Chain' (· < ·) l2)
    (hxy : ∀ x ∈ l1, ∀ y ∈ l2, x < y) : List.Chain' (· < ·) (l1 ++ l2) := by
  rw [List.chain'_append]
  refine ⟨h1, h2, ?_⟩
  intro x hx y hy
  exact hxy x (List.mem_of_mem_getLast? hx) y (List.mem_of_mem_head? hy)

theorem lastNL_lt (l : List Char) : ∀ j, lastNL l = some j → j < l.length := by
  induction l with
  | nil => intro j h; simp [lastNL] at h
  | cons c cs ih =>
    intro j h
    unfold lastNL at h
    rcases hc : lastNL cs with _ | i
    · rw [hc] at h
      by_cases hcn : c = '\n'
      · rw [if_pos hcn] at h
        have : j = 0 := (Option.some.inj h).symm
        simp [this]
      · rw [if_neg hcn] at h
        simp at h
    · rw [hc] at h
      have : i + 1 = j := Option.some.inj h
      have hi := ih i hc
      simp only [List.length_cons]
      omega

theorem rfindNL_bounds (cs : List Char) (lo hi i : Nat)
    (h : rfindNL cs lo hi = some i) : lo ≤ i ∧ i < hi := by
  unfold rfindNL at h
  rcases hl : lastNL ((cs.drop lo).take (hi - lo)) with _ | j
  · rw [hl] at h
    simp at h
  · rw [hl] at h
    simp only [Option.map_some'] at h
    have hj := lastNL_lt _ j hl
    have hlen : ((cs.drop lo).take (hi - lo)).length ≤ hi - lo := by
      rw [List.length_take]
      exact min_le_left _ _
    have := Option.some.inj h
    omega

theorem chooseEnd_bounds (ct : List Char) (start : Nat) (h : start < ct.length) :
    start < chooseEnd ct start ∧ chooseEnd ct start ≤ ct.length := by
  have hM : MAX_CHUNK_SIZE = 15000 := rfl
  unfold chooseEnd
  split
  · split
    · rename_i i heq
      have hb := rfindNL_bounds _ _ _ _ heq
      split
      · constructor <;> omega
      · constructor <;> omega
    · constructor <;> omega
  · constructor <;> omega

theorem offs_cons (c : ChunkT) (L : List ChunkT) :
    offs (c :: L) = chunkOff c :: offs L := rfl

theorem segLoop_spec (t : String) (ct : List Char) (base : Nat) :
    ∀ (fuel start segIdx : Nat), ct.length - start ≤ fuel → start < ct.length →
      segLoop t ct base segIdx start ≠ [] ∧
      List.Chain' (· < ·) (offs (segLoop t ct base segIdx start)) ∧
      (∀ o ∈ offs (segLoop t ct base segIdx start),
        base + start < o ∧ o ≤ base + ct.length) ∧
      (offs (segLoop t ct base segIdx start)).getLastD 0 = base + ct.length := by
  intro fuel
  induction fuel with
  | zero =>
    intro start segIdx hf hs
    omega
  | succ fuel ih =>
    intro start segIdx hf hs
    rw [segLoop]
    rw [dif_pos hs]
    obtain ⟨he1, he2⟩ := chooseEnd_bounds ct start hs
    by_cases hlt : chooseEnd ct start < ct.length
    · have hf2 : ct.length - chooseEnd ct start ≤ fuel := by omega
      obtain ⟨hne, hch, hbd, hlast⟩ := ih (chooseEnd ct start) (segIdx + 1) hf2 hlt
      rw [offs_cons]
      have hone : offs (segLoop t ct base (segIdx + 1) (chooseEnd ct start)) ≠ [] := by
        intro hx
        exact hne (List.map_eq_nil_iff.mp hx)
      refine ⟨by simp, ?_, ?_, ?_⟩
      · rw [List.chain'_cons']
        refine ⟨?_, hch⟩
        intro y hy
        exact (hbd y (List.mem_of_mem_head? hy)).1
      · intro o ho
        rcases List.mem_cons.mp ho with ho | ho
        · rw [ho]
          exact ⟨by simp [chunkOff]; omega, by simp [chunkOff]; omega⟩
        · obtain ⟨h1, h2⟩ := hbd o ho
          exact ⟨by omega, h2⟩
      · rw [List.getLastD_cons]
        rw [getLastD_irrel _ hone _ 0]
        exact hlast
    · have he : chooseEnd ct start = ct.length := by omega
      have hnil : segLoop t ct base (segIdx + 1) (chooseEnd ct start) = [] := by
        rw [segLoop]
        rw [dif_neg (by omega)]
      rw [hnil, offs_cons]
      refine ⟨by simp, by simp [offs], ?_, ?_⟩
      · intro o ho
        simp only [offs, List.map_nil, List.mem_singleton] at ho
        rw [ho]
        simp only [chunkOff]
        constructor <;> omega
      · simp [offs, chunkOff, he]

theorem string_length_pos (s : String) (h : s ≠ "") : 0 < s.length := by
  have hd : s.data ≠ [] := (string_ne_empty_iff s).mp h
  have : s.length = s.data.length := rfl
  rw [this]
  exact List.length_pos.mpr hd

theorem bracket_mem_header (title : String) (rest : List Char) :
    '【' ∈ ("【" ++ title ++ "】\n").data ++ rest := by
  apply List.mem_append_left
  rw [String.data_append, String.data_append]
  apply List.mem_append_left
  apply List.mem_append_left
  decide

theorem flushed_inv (st : BState) (hinv : chunkInv st) (hb : st.current_text ≠ []) :
    List.Chain' (· < ·) (offs (st.chunks ++
      [(st.current_titles, String.mk (pyStrip st.current_text), st.chars_processed)])) ∧
    (∀ o ∈ offs (st.chunks ++
      [(st.current_titles, String.mk (pyStrip st.current_text), st.chars_processed)]),
      o ≤ st.chars_processed) ∧
    (offs (st.chunks ++
      [(st.current_titles, String.mk (pyStrip st.current_text), st.chars_processed)])).getLastD 0 =
      st.chars_processed := by
  obtain ⟨hA, hB, hC, hD, hE⟩ := hinv
  have hoffs : offs (st.chunks ++
      [(st.current_titles, String.mk (pyStrip st.current_text), st.chars_processed)]) =
      offs st.chunks ++ [st.chars_processed] := by
    unfold offs
    rw [List.map_append]
    rfl
  rw [hoffs]
  refine ⟨?_, ?_, ?_⟩
  · apply chain_append_lt _ _ hA (by simp)
    intro x hx y hy
    have := hD hb x hx
    simp only [List.mem_singleton] at hy
    omega
  · intro o ho
    rcases List.mem_append.mp ho with ho | ho
    · exact hB o ho
    · simp only [List.mem_singleton] at ho
      omega
  · exact List.getLastD_concat _ _ _

theorem offs_append (l1 l2 : List ChunkT) : offs (l1 ++ l2) = offs l1 ++ offs l2 := by
  unfold offs
  exact List.map_append chunkOff l1 l2

theorem cwh_has_bracket (title text : String) :
    '【' ∈ ("【" ++ title ++ "】\n").data ++ text.data ++ ['\n', '\n'] := by
  apply List.mem_append_left
  exact bracket_mem_header title text.data

theorem chunkStep_inv (st : BState) (chap : String × String) (hinv : chunkInv st)
    (hne : chap.2 ≠ "") : chunkInv (chunkStep st chap) := by
  obtain ⟨hA, hB, hC, hD, hE⟩ := hinv
  have hlen : 0 < chap.2.length := string_length_pos _ hne
  have hdlen : chap.2.data.length = chap.2.length := rfl
  simp only [chunkStep]
  split
  · rename_i h1
    obtain ⟨sne, sch, sbd, slast⟩ := segLoop_spec chap.1 chap.2.data st.chars_processed
      chap.2.data.length 0 0 (by omega) (by omega)
    have sone : offs (segLoop chap.1 chap.2.data st.chars_processed 0 0) ≠ [] := by
      intro hx
      exact sne (List.map_eq_nil_iff.mp hx)
    split
    · rename_i h2
      have hbne : st.current_text ≠ [] := by
        intro hx
        rw [hx] at h2
        exact h2 rfl
      obtain ⟨f1, f2, f3⟩ := flushed_inv st ⟨hA, hB, hC, hD, hE⟩ hbne
      refine ⟨?_, ?_, ?_, ?_, ?_⟩
      · dsimp only
        rw [offs_append]
        apply chain_append_lt _ _ f1 sch
        intro x hx y hy
        have hx2 := f2 x hx
        have hy2 := (sbd y hy).1
        omega
      · dsimp only
        intro o ho
        rw [offs_append] at ho
        rcases List.mem_append.mp ho with ho | ho
        · have := f2 o ho
          omega
        · have := (sbd o ho).2
          omega
      · intro _
        dsimp only
        rw [offs_append, getLastD_append_right _ _ sone 0, slast]
        omega
      · intro hcontra
        exact absurd rfl hcontra
      · intro hcontra
        exact absurd rfl hcontra
    · rename_i h2
      have hbempty : st.current_text = [] := by
        by_cases hbuf : st.current_text = []
        · exact hbuf
        · exact absurd (pyStrip_ne_nil st.current_text '【' (hE hbuf) (by decide)) h2
      refine ⟨?_, ?_, ?_, ?_, ?_⟩
      · dsimp only
        rw [offs_append]
        apply chain_append_lt _ _ hA sch
        intro x hx y hy
        have hx2 := hB x hx
        have hy2 := (sbd y hy).1
        omega
      · dsimp only
        intro o ho
        rw [offs_append] at ho
        rcases List.mem_append.mp ho with ho | ho
        · have := hB o ho
          omega
        · have := (sbd o ho).2
          omega
      · intro _
        dsimp only
        rw [offs_append, getLastD_append_right _ _ sone 0, slast]
        omega
      · intro hcontra
        dsimp only at hcontra
        rw [hbempty] at hcontra
        exact absurd rfl hcontra
      · intro hcontra
        dsimp only at hcontra
        rw [hbempty] at hcontra
        exact absurd rfl hcontra
  · rename_i h1
    split
    · rename_i h2
      have hbne : st.current_text ≠ [] := h2.1
      obtain ⟨f1, f2, f3⟩ := flushed_inv st ⟨hA, hB, hC, hD, hE⟩ hbne
      refine ⟨f1, ?_, ?_, ?_, ?_⟩
      · dsimp only
        intro o ho
        have := f2 o ho
        show o ≤ st.chars_processed + chap.2.length
        omega
      · intro hcontra
        dsimp only at hcontra
        rw [List.nil_append] at hcontra
        exact absurd hcontra (List.ne_nil_of_mem (cwh_has_bracket chap.1 chap.2))
      · intro _ o ho
        dsimp only at ho
        have := f2 o ho
        show o < st.chars_processed + chap.2.length
        omega
      · intro _
        dsimp only
        apply List.mem_append_right
        exact cwh_has_bracket chap.1 chap.2
    · rename_i h2
      refine ⟨hA, ?_, ?_, ?_, ?_⟩
      · dsimp only
        intro o ho
        have := hB o ho
        show o ≤ st.chars_processed + chap.2.length
        omega
      · intro hcontra
        dsimp only at hcontra
        have h3 : ("【" ++ chap.1 ++ "】\n").data ++ chap.2.data ++ ['\n', '\n'] = [] :=
          (List.append_eq_nil.mp hcontra).2
        exact absurd h3 (List.ne_nil_of_mem (cwh_has_bracket chap.1 chap.2))
      · intro _ o ho
        dsimp only at ho
        have := hB o ho
        show o < st.chars_processed + chap.2.length
        omega
      · intro _
        dsimp only
        apply List.mem_append_right
        exact cwh_has_bracket chap.1 chap.2

theorem chunkStep_cp (st : BState) (chap : String × String) :
    (chunkStep st chap).chars_processed = st.chars_processed + chap.2.length := by
  simp only [chunkStep]
  split
  · split
    · rfl
    · rfl
  · split
    · rfl
    · rfl

theorem foldl_chunkStep_cp (l : List (String × String)) : ∀ (st : BState),
    (l.foldl chunkStep st).chars_processed = st.chars_processed + totalLen l := by
  induction l with
  | nil =>
    intro st
    simp [totalLen]
  | cons c t ih =>
    intro st
    rw [List.foldl_cons, ih (chunkStep st c), chunkStep_cp]
    simp only [totalLen, List.map_cons, List.sum_cons]
    omega

theorem foldl_chunkStep_inv (l : List (String × String)) : ∀ (st : BState),
    chunkInv st → (∀ p ∈ l, p.2 ≠ "") → chunkInv (l.foldl chunkStep st) := by
  induction l with
  | nil =>
    intro st h _
    exact h
  | cons c t ih =>
    intro st h hl
    rw [List.foldl_cons]
    exact ih (chunkStep st c) (chunkStep_inv st c h (hl c (List.mem_cons_self c t)))
      (fun p hp => hl p (List.mem_cons_of_mem c hp))

theorem totalLen_pos (chapters : List (String × String))
    (h : ∀ p ∈ chapters, p.2 ≠ "") (hne : chapters ≠ []) : 0 < totalLen chapters := by
  rcases chapters with _ | ⟨c, t⟩
  · exact absurd rfl hne
  · simp only [totalLen, List.map_cons, List.sum_cons]
    have := string_length_pos c.2 (h c (List.mem_cons_self c t))
    omega

theorem build_chunks_main (chapters : List (String × String))
    (h : ∀ p ∈ chapters, p.2 ≠ "") :
    List.Chain' (· < ·) (offs (build_chunks chapters)) ∧
    (chapters ≠ [] →
      build_chunks chapters ≠ [] ∧
      (offs (build_chunks chapters)).getLastD 0 = totalLen chapters) := by
  have hinit : chunkInv ⟨[], [], [], 0⟩ := by
    refine ⟨by simp [offs], by simp [offs], fun _ => by simp [offs], ?_, ?_⟩
    · intro hcontra
      exact absurd rfl hcontra
    · intro hcontra
      exact absurd rfl hcontra
  have hinv := foldl_chunkStep_inv chapters ⟨[], [], [], 0⟩ hinit h
  have hcp := foldl_chunkStep_cp chapters ⟨[], [], [], 0⟩
  obtain ⟨hA, hB, hC, hD, hE⟩ := hinv
  simp only at hcp
  simp only [build_chunks]
  split
  · rename_i hflush
    have hbne : (chapters.foldl chunkStep ⟨[], [], [], 0⟩).current_text ≠ [] := by
      intro hx
      rw [hx] at hflush
      exact hflush rfl
    obtain ⟨f1, f2, f3⟩ := flushed_inv (chapters.foldl chunkStep ⟨[], [], [], 0⟩)
      ⟨hA, hB, hC, hD, hE⟩ hbne
    refine ⟨f1, fun _ => ⟨by simp, ?_⟩⟩
    rw [f3, hcp]
    omega
  · rename_i hflush
    have hbempty : (chapters.foldl chunkStep ⟨[], [], [], 0⟩).current_text = [] := by
      by_cases hbuf : (chapters.foldl chunkStep ⟨[], [], [], 0⟩).current_text = []
      · exact hbuf
      · exact absurd (pyStrip_ne_nil _ '【' (hE hbuf) (by decide)) hflush
    have hlast := hC hbempty
    refine ⟨hA, fun hne => ?_⟩
    have htot := totalLen_pos chapters h hne
    have hlast2 : (offs ((chapters.foldl chunkStep ⟨[], [], [], 0⟩).chunks)).getLastD 0 =
        totalLen chapters := by
      rw [hlast, hcp]
      omega
    constructor
    · intro hxnil
      rw [hxnil] at hlast2
      simp [offs] at hlast2
      omega
    · exact hlast2

/-! ## Claim C7 -/

/-- Claim C7: for every chapter list with non-empty chapter texts, the
cumulative end-offsets of the chunks produced by `build_chunks` are strictly
increasing, and (for a non-empty chapter list) the final end-offset equals
the total length of the input text. -/
theorem C7_offsets_strict_monotone (chapters : List (String × String))
    (h : ∀ p ∈ chapters, p.2 ≠ "") :
    List.Chain' (· < ·) (offs (build_chunks chapters)) ∧
    (chapters ≠ [] →
      build_chunks chapters ≠ [] ∧
      (offs (build_chunks chapters)).getLastD 0 = totalLen chapters) :=
  build_chunks_main chapters h

/-- Witness for C7 at a concrete two-chapter input. -/
theorem C7_witness :
    List.Chain' (· < ·) (offs (build_chunks [("A", "xy"), ("B", "z")])) ∧
    build_chunks [("A", "xy"), ("B", "z")] ≠ [] ∧
    (offs (build_chunks [("A", "xy"), ("B", "z")])).getLastD 0 =
      totalLen [("A", "xy"), ("B", "z")] :=
  ⟨(C7_offsets_strict_monotone [("A", "xy"), ("B", "z")] (by decide)).1,
   ((C7_offsets_strict_monotone [("A", "xy"), ("B", "z")] (by decide)).2 (by decide)).1,
   ((C7_offsets_strict_monotone [("A", "xy"), ("B", "z")] (by decide)).2 (by decide)).2⟩

/-! ## Claim C3 -/

/-- Claim C3 counterexample: concatenating the chunk payloads does not
reproduce the input text and the summed payload lengths differ from the
total input length, because each chapter text is wrapped in a 【title】
header and whitespace-stripped: the single chapter `("T", "ab")` yields the
payload `"【T】\nab"` of length 6 against an input of length 2. -/
theorem C3_counterexample :
    String.join ((build_chunks [("T", "ab")]).map chunkPayload) ≠ "ab" ∧
    ((build_chunks [("T", "ab")]).map (fun c => (chunkPayload c).length)).sum ≠
      totalLen [("T", "ab")] := by
  constructor
  · decide
  · decide

/-- Claim C3 (amended): payload concatenation reproduces the input only up
to the inserted 【title】 headers and whitespace stripping, so the advertised
equality fails; what the chunker does guarantee is exact offset accounting —
for a non-empty chapter list with non-empty chapter texts the chunk list is
non-empty and its final cumulative end-offset equals the total input
length. -/
theorem C3_amended (chapters : List (String × String))
    (h : ∀ p ∈ chapters, p.2 ≠ "") (hne : chapters ≠ []) :
    build_chunks chapters ≠ [] ∧
    (offs (build_chunks chapters)).getLastD 0 = totalLen chapters :=
  (build_chunks_main chapters h).2 hne

/-- Witness for C3 (amended) at a concrete two-chapter input. -/
theorem C3_witness :
    build_chunks [("T", "ab"), ("U", "cd")] ≠ [] ∧
    (offs (build_chunks [("T", "ab"), ("U", "cd")])).getLastD 0 =
      totalLen [("T", "ab"), ("U", "cd")] :=
  C3_amended [("T", "ab"), ("U", "cd")] (by decide) (by decide)
